import Mathlib

/-!
Shallow embedding of the DioxusBrain knowledge-graph core:
`src/graph/mod.rs` (graph build, stats, hubs, BFS path finding),
`src/utils/mod.rs` (wikilink extraction, truncation, search) and
`src/store/mod.rs` (backlink resolution).

Rust `HashMap`s are modelled as association lists (unique keys where the
source relies on it), `HashSet`s as duplicate-free lists, and `String`s as
their lists of characters.  Timestamps are abstracted as `Nat`; they are
never read by the verified operations.
-/

namespace DioxusBrain

/-! ### Character-list helpers (Rust `str` operations) -/

/-- Lowercasing of a character list (Rust `str::to_lowercase`). -/
def lowerChars (s : List Char) : List Char := s.map Char.toLower

/-- Trim whitespace at both ends (Rust `str::trim`). -/
def trimChars (s : List Char) : List Char :=
  ((s.dropWhile Char.isWhitespace).reverse.dropWhile Char.isWhitespace).reverse

/-- Trim whitespace at the end only (Rust `str::trim_end`). -/
def trimEndChars (s : List Char) : List Char :=
  (s.reverse.dropWhile Char.isWhitespace).reverse

/-- `begMatch needle hay` holds when `needle` occurs at the start of `hay`. -/
def begMatch : List Char → List Char → Bool
  | [], _ => true
  | _ :: _, [] => false
  | a :: as, b :: bs => a = b && begMatch as bs

/-- `containsSub needle hay` is Rust `str::contains` for plain substrings. -/
def containsSub (needle : List Char) : List Char → Bool
  | [] => begMatch needle []
  | c :: rest => begMatch needle (c :: rest) || containsSub needle rest

/-! ### The wikilink scanner

Both extractors run the regex `\[\[([^\]]+)\]\]` over the text with
`captures_iter`: at each position, a match needs `[[`, then a nonempty
maximal run of characters other than `]`, then `]]`; matches are
non-overlapping and scanning resumes after each match, or one character
further on failure. -/

/-- One step of the scan per unit of fuel.  Every recursive call is on a
strictly shorter list, so any fuel above the length of the input is enough;
`wikiSpans` below supplies `length + 1`. -/
def wikiSpansF : Nat → List Char → List (List Char)
  | 0, _ => []
  | fuel + 1, cs =>
    match cs with
    | '[' :: '[' :: rest =>
      let content := rest.takeWhile (fun c => c ≠ ']')
      let rem := rest.dropWhile (fun c => c ≠ ']')
      if content ≠ [] ∧ rem.take 2 = [']', ']'] then
        content :: wikiSpansF fuel (rem.drop 2)
      else
        wikiSpansF fuel ('[' :: rest)
    | _ :: rest => wikiSpansF fuel rest
    | [] => []

/-- All capture groups of `\[\[([^\]]+)\]\]` over a character list, in
first-to-last order of occurrence. -/
def wikiSpans (cs : List Char) : List (List Char) :=
  wikiSpansF (cs.length + 1) cs

/-- `src/graph/mod.rs` `KnowledgeGraph::extract_wikilinks`: capture group,
alias stripped at the first `|`, trimmed. -/
def kgExtractWikilinks (content : String) : List String :=
  (wikiSpans content.data).map
    (fun s => String.mk (trimChars (s.takeWhile (fun c => c ≠ '|'))))

/-- `src/utils/mod.rs` `extract_wikilinks`: capture group split at the first
`|` into target and alias (alias absent when there is no `|`), both trimmed. -/
def extract_wikilinks (text : String) : List (String × Option String) :=
  (wikiSpans text.data).map (fun s =>
    if s.contains '|' then
      (String.mk (trimChars (s.takeWhile (fun c => c ≠ '|'))),
       some (String.mk (trimChars ((s.dropWhile (fun c => c ≠ '|')).drop 1))))
    else
      (String.mk (trimChars s), none))

/-- `src/utils/mod.rs` `truncate_text`. -/
def truncate_text (text : String) (maxLength : Nat) : String :=
  if text.data.length ≤ maxLength then text
  else String.mk (trimEndChars (text.data.take (maxLength - 3))) ++ "..."

example : extract_wikilinks "See [[Foo|bar]] and [[Baz]]" =
    [("Foo", some "bar"), ("Baz", none)] := by decide

example : kgExtractWikilinks "x [[ A |al]] y [[B]] [[B]]" = ["A", "B", "B"] := by decide

/-! ### Data model (`src/store/mod.rs`) -/

/-- A block of the outliner (`Block` in `src/store/mod.rs`); the
`properties` map and the two timestamps are carried but never read by the
verified operations (timestamps abstracted as `Nat`). -/
structure Block where
  id : String
  content : String
  parent_id : Option String
  children : List String
  properties : List (String × String)
  created_at : Nat
  updated_at : Nat
deriving DecidableEq

/-- A page (`Page` in `src/store/mod.rs`); `blocks` lists the top-level
block ids in order. -/
structure Page where
  id : String
  title : String
  icon : Option String
  blocks : List String
  properties : List (String × String)
  tags : List String
  created_at : Nat
  updated_at : Nat
deriving DecidableEq

/-! ### Graph structures (`src/graph/mod.rs`) -/

/-- `GraphNode`. -/
structure GraphNode where
  id : String
  title : String
  icon : Option String
  tags : List String
  link_count : Nat
  is_active : Bool
deriving DecidableEq

/-- `GraphNode::from_page`. -/
def GraphNode.from_page (page : Page) (isActive : Bool) : GraphNode :=
  { id := page.id, title := page.title, icon := page.icon, tags := page.tags,
    link_count := 0, is_active := isActive }

/-- `GraphEdge`; `GraphEdge::new` always sets weight 1. -/
structure GraphEdge where
  source : String
  target : String
  weight : Nat
deriving DecidableEq

/-- `KnowledgeGraph`: `nodes` is an id-keyed map (association list),
`adjacency` maps ids to neighbor sets (duplicate-free lists). -/
structure KnowledgeGraph where
  nodes : List (String × GraphNode)
  edges : List GraphEdge
  adjacency : List (String × List String)
deriving DecidableEq

/-- Neighbor set of `k`, empty when `k` has no adjacency entry
(Rust `adjacency.get(k)` with a missing entry treated as empty). -/
def lookupD (adj : List (String × List String)) (k : String) : List String :=
  (List.lookup k adj).getD []

/-- `adjacency.entry(a).or_insert_with(HashSet::new).insert(b)`: add `b` to
the neighbor set of `a`, creating the entry if absent. -/
def adjInsert (adj : List (String × List String)) (a b : String) :
    List (String × List String) :=
  match adj with
  | [] => [(a, [b])]
  | (k, s) :: rest =>
    if k = a then (k, if b ∈ s then s else b :: s) :: rest
    else (k, s) :: adjInsert rest a b

/-- Membership in the adjacency index: `b ∈ adjacency[a]`. -/
def adjMem (adj : List (String × List String)) (a b : String) : Prop :=
  b ∈ lookupD adj a

instance (adj : List (String × List String)) (a b : String) :
    Decidable (adjMem adj a b) := by unfold adjMem; infer_instance

/-- Bump the corpus-wide occurrence counter at key `k`. -/
def bumpCount (f : String → Nat) (k : String) : String → Nat :=
  fun x => if x = k then f x + 1 else f x

/-- Mutable state threaded through `build_from_state`'s first pass. -/
structure BuildAcc where
  nodes : List (String × GraphNode)
  edges : List GraphEdge
  adjacency : List (String × List String)
  counts : String → Nat

/-- Body of the per-link loop of `build_from_state`: bump the occurrence
counter for the target, and unless the link is a self-link append a directed
edge and insert both directions into the adjacency index. -/
def processLink (pid : String) (st : BuildAcc) (link : String) : BuildAcc :=
  let st := { st with counts := bumpCount st.counts link }
  if link ≠ pid then
    { st with
      edges := st.edges ++ [⟨pid, link, 1⟩],
      adjacency := adjInsert (adjInsert st.adjacency pid link) link pid }
  else st

/-- Per-block body of `build_from_state`'s first pass: look the block up and
process every wikilink of its content; missing blocks are skipped. -/
def processBlockStep (blocks : List (String × Block)) (pid : String)
    (st : BuildAcc) (bid : String) : BuildAcc :=
  match List.lookup bid blocks with
  | some b => (kgExtractWikilinks b.content).foldl (processLink pid) st
  | none => st

/-- Per-page body of `build_from_state`'s first pass: insert the node, then
scan the page's directly listed blocks for wikilinks. -/
def processPage (blocks : List (String × Block)) (active : Option String)
    (st : BuildAcc) (pg : String × Page) : BuildAcc :=
  let st := { st with
    nodes := st.nodes ++ [(pg.1, GraphNode.from_page pg.2 (some pg.1 = active))] }
  pg.2.blocks.foldl (processBlockStep blocks pg.1) st

/-- `KnowledgeGraph::build_from_state`: first pass builds nodes, edges,
adjacency and the occurrence counter; the second pass writes the counter
value onto each existing node's `link_count`. -/
def build_from_state (pages : List (String × Page))
    (blocks : List (String × Block)) (active : Option String) : KnowledgeGraph :=
  let st := pages.foldl (processPage blocks active) ⟨[], [], [], fun _ => 0⟩
  { nodes := st.nodes.map (fun e => (e.1, { e.2 with link_count := st.counts e.1 })),
    edges := st.edges,
    adjacency := st.adjacency }

/-- `GraphStats`. -/
structure GraphStats where
  total_pages : Nat
  total_links : Nat
  connected_pages : Nat
  isolated_pages : Nat
deriving DecidableEq

/-- `KnowledgeGraph::get_stats`. -/
def get_stats (g : KnowledgeGraph) : GraphStats :=
  { total_pages := g.nodes.length,
    total_links := g.edges.length,
    connected_pages :=
      ((g.nodes.map Prod.snd).filter (fun n => decide (0 < n.link_count))).length,
    isolated_pages :=
      ((g.nodes.map Prod.snd).filter
        (fun n => decide (n.link_count = 0) && decide (1 < g.nodes.length))).length }

/-- `KnowledgeGraph::get_hub_pages`: pair each node with its `link_count`,
keep the strictly positive ones, sort descending (stable), truncate. -/
def get_hub_pages (g : KnowledgeGraph) (limit : Nat) : List (GraphNode × Nat) :=
  (List.mergeSort
    (((g.nodes.map Prod.snd).map (fun n => (n, n.link_count))).filter
      (fun e => decide (0 < e.2)))
    (fun a b => decide (b.2 ≤ a.2))).take limit

/-- The inner neighbor loop of `find_path`: enqueue every not-yet-visited
neighbor with the extended path, marking it visited at enqueue time. -/
def enqueueAll (path : List String) (visited : List String) :
    List String → List String × List (String × List String)
  | [] => (visited, [])
  | n :: ns =>
    if n ∈ visited then enqueueAll path visited ns
    else
      let r := enqueueAll path (n :: visited) ns
      (r.1, (n, path ++ [n]) :: r.2)

/-- The BFS loop of `find_path`; fuel bounds the number of iterations (the
Rust loop terminates because every enqueue marks a fresh node visited, and
`find_path` passes fuel exceeding the number of possible visited nodes). -/
def bfsAux (adj : List (String × List String)) (goal : String) :
    Nat → List String → List (String × List String) → Option (List String)
  | 0, _, _ => none
  | _ + 1, _, [] => none
  | fuel + 1, visited, (c, path) :: rest =>
    if c = goal then some path
    else
      let r := enqueueAll path visited (lookupD adj c)
      bfsAux adj goal fuel r.1 (rest ++ r.2)

/-- Key presence in an association-list map (`HashMap::contains_key`). -/
def containsKey {α : Type} (m : List (String × α)) (k : String) : Bool :=
  (List.lookup k m).isSome

/-- `KnowledgeGraph::find_path`: fail fast when either endpoint has no node,
then breadth-first search over the adjacency index from `start`. -/
def find_path (g : KnowledgeGraph) (start goal : String) : Option (List String) :=
  if containsKey g.nodes start && containsKey g.nodes goal then
    bfsAux g.adjacency goal (((g.adjacency.map Prod.snd).flatten).length + 1)
      [start] [(start, [start])]
  else none

/-! ### Search (`src/utils/mod.rs`) and backlinks (`src/store/mod.rs`) -/

/-- `SearchResult`. -/
structure SearchResult where
  page_id : String
  page_title : String
  score : Nat
  block_matches : List String
deriving DecidableEq

/-- The title contribution of `search_pages`: a case-insensitive title
match scores a fixed 10, otherwise 0. -/
def searchTitleScore (ql : List Char) (pg : Page) : Nat :=
  if containsSub ql (lowerChars pg.title.data) then 10 else 0

/-- The block scan of `search_pages`: a 100-character snippet per directly
listed block whose content contains the query case-insensitively. -/
def searchBlockMatches (ql : List Char) (blocks : List (String × Block))
    (pg : Page) : List String :=
  pg.blocks.filterMap (fun bid =>
    match List.lookup bid blocks with
    | some b =>
      if containsSub ql (lowerChars b.content.data) then
        some (truncate_text b.content 100)
      else none
    | none => none)

/-- `search_pages`: title match scores 10, each matching directly listed
block adds 2 and a 100-character snippet; pages with no match are dropped;
results sorted descending by score. -/
def search_pages (query : String) (pages : List (String × Page))
    (blocks : List (String × Block)) : List SearchResult :=
  let ql := lowerChars query.data
  let results := pages.filterMap (fun pg =>
    let titleScore := searchTitleScore ql pg.2
    let blockMatches := searchBlockMatches ql blocks pg.2
    if 0 < titleScore ∨ blockMatches ≠ [] then
      some ⟨pg.2.id, pg.2.title, titleScore + blockMatches.length * 2, blockMatches⟩
    else none)
  List.mergeSort results (fun a b => decide (b.score ≤ a.score))

/-- `Backlink`. -/
structure Backlink where
  page_id : String
  page_title : String
  block_id : String
  context : String
deriving DecidableEq

/-- The title resolution step of `get_backlinks`: the page's lowercased
title, or the raw id when the page is missing. -/
def resolvedTitle (pages : List (String × Page)) (pageId : String) : List Char :=
  match List.lookup pageId pages with
  | some p => lowerChars p.title.data
  | none => pageId.data

/-- `AppState::get_backlinks`: resolve the page's lowercased title (raw id
when the page is missing), then scan every other page's directly listed
blocks for the literal substring `[[title]]` or `[[title|` in the lowercased
content; every hit yields a `Backlink` with the full block content. -/
def get_backlinks (pages : List (String × Page)) (blocks : List (String × Block))
    (pageId : String) : List Backlink :=
  let pageTitle : List Char := resolvedTitle pages pageId
  pages.flatMap (fun pg =>
    if pg.1 = pageId then []
    else pg.2.blocks.filterMap (fun bid =>
      match List.lookup bid blocks with
      | some b =>
        let cl := lowerChars b.content.data
        if containsSub ('[' :: '[' :: pageTitle ++ [']', ']']) cl ||
           containsSub ('[' :: '[' :: pageTitle ++ ['|']) cl then
          some ⟨pg.1, pg.2.title, b.id, b.content⟩
        else none
      | none => none))

/-! ### Auxiliary predicates used to state the claims -/

/-- `hasBracketPair cs` holds when `cs` contains `[[` with `]]` somewhere
after it — the shape of a complete `[[...]]` bracket pair. -/
def hasBracketPair : List Char → Bool
  | [] => false
  | c :: rest =>
    if c = '[' ∧ rest.take 1 = ['['] then containsSub [']', ']'] (rest.drop 1)
    else hasBracketPair rest

theorem containsSub_cons_of (n : List Char) (c : Char) (rest : List Char)
    (h : containsSub n rest = true) : containsSub n (c :: rest) = true := by
  show (begMatch n (c :: rest) || containsSub n rest) = true
  simp [h]

theorem containsSub_dd_append (xs ys : List Char) :
    containsSub [']', ']'] (xs ++ ']' :: ']' :: ys) = true := by
  induction xs with
  | nil =>
    show (begMatch [']', ']'] (']' :: ']' :: ys) || containsSub [']', ']'] (']' :: ys)) = true
    simp [show begMatch [']', ']'] (']' :: ']' :: ys) = true from rfl]
  | cons c rest ih => exact containsSub_cons_of _ _ _ ih

theorem containsSub_dd_of_hasBracketPair : ∀ cs : List Char,
    hasBracketPair cs = true → containsSub [']', ']'] cs = true := by
  intro cs h
  induction cs with
  | nil => exact absurd h (by rw [hasBracketPair]; simp)
  | cons c rest ih =>
    rw [hasBracketPair] at h
    by_cases hc : c = '[' ∧ rest.take 1 = ['[']
    · rw [if_pos hc] at h
      rcases rest with _ | ⟨d, rest2⟩
      · simp at hc
      · exact containsSub_cons_of _ _ _ (containsSub_cons_of _ _ _ (by simpa using h))
    · rw [if_neg hc] at h
      exact containsSub_cons_of _ _ _ (ih h)

theorem containsSub_tail (n : List Char) (c : Char) (rest : List Char)
    (hb : begMatch n (c :: rest) = false) (h : containsSub n (c :: rest) = true) :
    containsSub n rest = true := by
  rw [containsSub] at h; simpa [hb] using h

/-- Evaluation of the scanner at a double opening bracket. -/
theorem wikiSpansF_open2 (f : Nat) (rest : List Char) :
    wikiSpansF (f + 1) ('[' :: '[' :: rest) =
      (if rest.takeWhile (fun c => c ≠ ']') ≠ [] ∧
          (rest.dropWhile (fun c => c ≠ ']')).take 2 = [']', ']'] then
        rest.takeWhile (fun c => c ≠ ']') ::
          wikiSpansF f ((rest.dropWhile (fun c => c ≠ ']')).drop 2)
      else wikiSpansF f ('[' :: rest)) := rfl

/-- Evaluation of the scanner when the head is not a double opening bracket. -/
theorem wikiSpansF_catchall (f : Nat) (head : Char) (rest : List Char)
    (hside : ¬(head = '[' ∧ rest.take 1 = ['['])) :
    wikiSpansF (f + 1) (head :: rest) = wikiSpansF f rest := by
  rw [wikiSpansF.eq_def]
  split
  · rename_i heq
    exact absurd heq (by omega)
  · rename_i x1 x2 fuel heq
    have hf : fuel = f := by omega
    subst hf
    split
    · rename_i rest1 heq2
      injection heq2 with e1 e2
      exact absurd ⟨e1, by rw [e2]; rfl⟩ hside
    · rename_i y1 y2 hnot heq2
      injection heq2 with e1 e2
      rw [e2]
    · rename_i heq2
      exact absurd heq2 (by simp)

theorem hasBracketPair_cons (c : Char) (rest : List Char) :
    hasBracketPair (c :: rest) =
      (if c = '[' ∧ rest.take 1 = ['['] then containsSub [']', ']'] (rest.drop 1)
       else hasBracketPair rest) := rfl

theorem hasBracketPair_of_wikiSpansF_ne_nil : ∀ (f : Nat) (cs : List Char),
    wikiSpansF f cs ≠ [] → hasBracketPair cs = true := by
  intro f
  induction f with
  | zero => intro cs h; exact absurd rfl h
  | succ f ih =>
    intro cs h
    rcases cs with _ | ⟨head, rest⟩
    · exact absurd rfl h
    by_cases hpat : head = '[' ∧ rest.take 1 = ['[']
    · obtain ⟨h1, h2⟩ := hpat
      subst h1
      rcases rest with _ | ⟨d, rest2⟩
      · simp at h2
      · have hd : d = '[' := by simpa [List.take] using h2
        subst hd
        have hgoal : containsSub [']', ']'] rest2 = true →
            hasBracketPair ('[' :: '[' :: rest2) = true := by
          intro hc
          rw [hasBracketPair_cons, if_pos ⟨rfl, by simp [List.take]⟩]
          simpa using hc
        rw [wikiSpansF_open2] at h
        by_cases hcond : rest2.takeWhile (fun c => c ≠ ']') ≠ [] ∧
            (rest2.dropWhile (fun c => c ≠ ']')).take 2 = [']', ']']
        · apply hgoal
          have hsplit : rest2 = rest2.takeWhile (fun c => decide (c ≠ ']')) ++
              rest2.dropWhile (fun c => decide (c ≠ ']')) :=
            (List.takeWhile_append_dropWhile _ _).symm
          rcases hrem : rest2.dropWhile (fun c => decide (c ≠ ']')) with _ | ⟨r1, rem1⟩
          · rw [hrem] at hcond
            exact absurd hcond.2 (by simp)
          · rcases rem1 with _ | ⟨r2, rem2⟩
            · rw [hrem] at hcond
              exact absurd hcond.2 (by simp)
            · have h12 : r1 = ']' ∧ r2 = ']' := by
                have hx := hcond.2
                rw [show rest2.dropWhile (fun c => c ≠ ']') =
                    rest2.dropWhile (fun c => decide (c ≠ ']')) from rfl, hrem] at hx
                simp [List.take] at hx
                exact ⟨hx.1, hx.2⟩
              rw [hsplit, hrem, h12.1, h12.2]
              exact containsSub_dd_append _ _
        · rw [if_neg hcond] at h
          have hb := ih _ h
          apply hgoal
          have hdd := containsSub_dd_of_hasBracketPair _ hb
          exact containsSub_tail _ _ _ (by rw [begMatch]; simp) hdd
    · rw [wikiSpansF_catchall f head rest hpat] at h
      have hb := ih _ h
      rw [hasBracketPair_cons, if_neg hpat]
      exact hb

/-! ### Lemmas about the graph build -/

theorem foldl_preserve {α β : Type} (P : α → Prop) {f : α → β → α}
    (hf : ∀ a b, P a → P (f a b)) : ∀ (l : List β) (a : α), P a → P (l.foldl f a) := by
  intro l
  induction l with
  | nil => exact fun a h => h
  | cons x xs ih => exact fun a h => ih _ (hf a x h)

theorem lookupD_nil (a : String) : lookupD [] a = [] := rfl

theorem beqT {a b : String} (h : a = b) : (a == b) = true := by simp [h]

theorem beqF {a b : String} (h : ¬a = b) : (a == b) = false := by simp [h]

theorem lookupD_cons (k : String) (s : List String)
    (rest : List (String × List String)) (a : String) :
    lookupD ((k, s) :: rest) a = if a = k then s else lookupD rest a := by
  by_cases h : a = k <;> simp [lookupD, List.lookup, beqT, beqF, h]

theorem lookupD_adjInsert (adj : List (String × List String)) (x y a : String) :
    lookupD (adjInsert adj x y) a =
      if a = x then (if y ∈ lookupD adj x then lookupD adj x else y :: lookupD adj x)
      else lookupD adj a := by
  induction adj with
  | nil =>
    by_cases h : a = x <;>
      simp [adjInsert, lookupD, List.lookup, beqT, beqF, h]
  | cons kv rest ih =>
    obtain ⟨k, s⟩ := kv
    by_cases hkx : k = x
    · subst hkx
      rw [show adjInsert ((k, s) :: rest) k y =
          (k, if y ∈ s then s else y :: s) :: rest by simp [adjInsert]]
      by_cases hax : a = k <;>
        simp [lookupD_cons, hax]
    · rw [show adjInsert ((k, s) :: rest) x y = (k, s) :: adjInsert rest x y by
        simp [adjInsert, hkx]]
      by_cases hak : a = k
      · subst hak
        have hax : ¬a = x := hkx
        simp [lookupD_cons, hax, ih]
      · rw [lookupD_cons, if_neg hak, ih]
        have hxk : ¬x = k := fun h => hkx h.symm
        simp [lookupD_cons, hak, hxk]

theorem adjMem_adjInsert (adj : List (String × List String)) (x y a b : String) :
    adjMem (adjInsert adj x y) a b ↔ adjMem adj a b ∨ (a = x ∧ b = y) := by
  unfold adjMem
  rw [lookupD_adjInsert]
  by_cases hax : a = x
  · subst hax
    rw [if_pos rfl]
    by_cases hy : y ∈ lookupD adj a
    · rw [if_pos hy]
      constructor
      · exact fun h => Or.inl h
      · rintro (h | ⟨-, rfl⟩)
        · exact h
        · exact hy
    · rw [if_neg hy]
      rw [List.mem_cons]
      tauto
  · rw [if_neg hax]
    simp [hax]

/-- Symmetry of an adjacency index. -/
def AdjSymm (adj : List (String × List String)) : Prop :=
  ∀ a b, adjMem adj a b ↔ adjMem adj b a

theorem adjSymm_processLink (pid : String) (st : BuildAcc) (link : String)
    (h : AdjSymm st.adjacency) : AdjSymm (processLink pid st link).adjacency := by
  by_cases hl : link = pid
  · simpa [processLink, hl] using h
  · intro a b
    simp only [processLink, if_pos (by exact hl : link ≠ pid)]
    rw [adjMem_adjInsert, adjMem_adjInsert, adjMem_adjInsert, adjMem_adjInsert]
    have := h a b
    tauto

theorem adjSymm_processBlockStep (blocks : List (String × Block)) (pid : String)
    (st : BuildAcc) (bid : String) (h : AdjSymm st.adjacency) :
    AdjSymm (processBlockStep blocks pid st bid).adjacency := by
  unfold processBlockStep
  rcases List.lookup bid blocks with _ | b
  · exact h
  · exact foldl_preserve (fun st' : BuildAcc => AdjSymm st'.adjacency)
      (fun st l hs => adjSymm_processLink pid st l hs) _ _ h

theorem adjSymm_processPage (blocks : List (String × Block)) (active : Option String)
    (st : BuildAcc) (pg : String × Page) (h : AdjSymm st.adjacency) :
    AdjSymm (processPage blocks active st pg).adjacency := by
  unfold processPage
  exact foldl_preserve (fun st' : BuildAcc => AdjSymm st'.adjacency)
    (fun st bid hs => adjSymm_processBlockStep blocks pg.1 st bid hs) _ _ h

/-- C1: for every graph produced by `build_from_state`, the adjacency index
is symmetric: `b ∈ adjacency[a] ↔ a ∈ adjacency[b]`, regardless of the
direction of the edges that created the entries. -/
theorem C1_adjacency_symmetric (pages : List (String × Page))
    (blocks : List (String × Block)) (active : Option String) (a b : String) :
    adjMem (build_from_state pages blocks active).adjacency a b ↔
      adjMem (build_from_state pages blocks active).adjacency b a := by
  have hinit : AdjSymm (BuildAcc.mk [] [] [] (fun _ => 0)).adjacency := by
    intro a b
    simp [adjMem, lookupD, List.lookup]
  have := foldl_preserve (fun st : BuildAcc => AdjSymm st.adjacency)
    (fun st pg hs => adjSymm_processPage blocks active st pg hs) pages _ hinit
  exact this a b

/-! ### Lemmas about nodes, edges and counters of the build -/

theorem processLink_nodes (pid : String) (st : BuildAcc) (link : String) :
    (processLink pid st link).nodes = st.nodes := by
  by_cases h : link = pid <;> simp [processLink, h]

theorem processBlockStep_nodes (blocks : List (String × Block)) (pid : String)
    (st : BuildAcc) (bid : String) :
    (processBlockStep blocks pid st bid).nodes = st.nodes := by
  unfold processBlockStep
  rcases List.lookup bid blocks with _ | b
  · rfl
  · exact foldl_preserve (fun st' : BuildAcc => st'.nodes = st.nodes)
      (fun a l ha => (processLink_nodes pid a l).trans ha) _ _ rfl

theorem processPage_nodes (blocks : List (String × Block)) (active : Option String)
    (st : BuildAcc) (pg : String × Page) :
    (processPage blocks active st pg).nodes =
      st.nodes ++ [(pg.1, GraphNode.from_page pg.2 (some pg.1 = active))] := by
  unfold processPage
  exact foldl_preserve (fun st' : BuildAcc => st'.nodes =
      st.nodes ++ [(pg.1, GraphNode.from_page pg.2 (some pg.1 = active))])
    (fun a bid ha => (processBlockStep_nodes blocks pg.1 a bid).trans ha) _ _ rfl

theorem build_nodes (pages : List (String × Page)) (blocks : List (String × Block))
    (active : Option String) :
    (pages.foldl (processPage blocks active) (BuildAcc.mk [] [] [] (fun _ => 0))).nodes =
      pages.map (fun pg => (pg.1, GraphNode.from_page pg.2 (some pg.1 = active))) := by
  suffices h : ∀ (ps : List (String × Page)) (st : BuildAcc),
      (ps.foldl (processPage blocks active) st).nodes =
        st.nodes ++ ps.map (fun pg => (pg.1, GraphNode.from_page pg.2 (some pg.1 = active))) by
    simpa using h pages (BuildAcc.mk [] [] [] (fun _ => 0))
  intro ps
  induction ps with
  | nil => simp
  | cons pg ps ih =>
    intro st
    simp only [List.foldl_cons, List.map_cons, ih, processPage_nodes]
    simp

theorem processLink_edges (pid : String) (st : BuildAcc) (link : String) :
    ∀ e ∈ (processLink pid st link).edges, e ∈ st.edges ∨ e.source = pid := by
  intro e he
  by_cases h : link = pid
  · simp [processLink, h] at he
    exact Or.inl he
  · simp [processLink, h] at he
    rcases he with he | he
    · exact Or.inl he
    · right; rw [he]

theorem processBlockStep_edges (blocks : List (String × Block)) (pid : String)
    (st : BuildAcc) (bid : String) :
    ∀ e ∈ (processBlockStep blocks pid st bid).edges, e ∈ st.edges ∨ e.source = pid := by
  unfold processBlockStep
  rcases List.lookup bid blocks with _ | b
  · exact fun e he => Or.inl he
  · exact foldl_preserve
      (fun st' : BuildAcc => ∀ e ∈ st'.edges, e ∈ st.edges ∨ e.source = pid)
      (fun a l ha e he => by
        rcases processLink_edges pid a l e he with h | h
        · exact ha e h
        · exact Or.inr h) _ _ (fun e he => Or.inl he)

theorem containsKey_append_snoc {α : Type} (l : List (String × α)) (e : String × α)
    (k : String) (h : containsKey l k = true) : containsKey (l ++ [e]) k = true := by
  induction l with
  | nil => exact Bool.noConfusion h
  | cons kv rest ih =>
    rcases kv with ⟨k1, v1⟩
    by_cases hk : k = k1
    · simp [containsKey, List.lookup, beqT hk]
    · simp only [List.cons_append, containsKey, List.lookup, beqF hk] at h ⊢
      exact ih h

theorem containsKey_snoc_self {α : Type} (l : List (String × α)) (k : String) (v : α) :
    containsKey (l ++ [(k, v)]) k = true := by
  induction l with
  | nil => simp [containsKey, List.lookup, beqT rfl]
  | cons kv rest ih =>
    by_cases hk : k = kv.1
    · simp [containsKey, List.lookup, beqT hk]
    · rcases kv with ⟨k1, v1⟩
      simp only [List.cons_append, containsKey, List.lookup, beqF hk]
      exact ih

/-- The invariant behind C10: every edge's source has a node entry. -/
def EdgeSrcInv (st : BuildAcc) : Prop :=
  ∀ e ∈ st.edges, containsKey st.nodes e.source = true

theorem edgeSrcInv_processPage (blocks : List (String × Block))
    (active : Option String) (st : BuildAcc) (pg : String × Page)
    (h : EdgeSrcInv st) : EdgeSrcInv (processPage blocks active st pg) := by
  intro e he
  rw [processPage_nodes]
  have hedges : ∀ e ∈ (processPage blocks active st pg).edges,
      e ∈ st.edges ∨ e.source = pg.1 := by
    unfold processPage
    exact foldl_preserve
      (fun st' : BuildAcc => ∀ e ∈ st'.edges, e ∈ st.edges ∨ e.source = pg.1)
      (fun a bid ha e he => by
        rcases processBlockStep_edges blocks pg.1 a bid e he with h1 | h1
        · exact ha e h1
        · exact Or.inr h1) _ _ (fun e he => Or.inl he)
  rcases hedges e he with h1 | h1
  · exact containsKey_append_snoc _ _ _ (h e h1)
  · rw [h1]
    exact containsKey_snoc_self _ _ _

/-- Looking up a key in the second-pass patched node list finds the
first-pass node with `link_count` replaced by the counter value at the key. -/
theorem lookup_patch (counts : String → Nat) :
    ∀ (l : List (String × GraphNode)) (k : String),
      List.lookup k (l.map (fun e => (e.1, { e.2 with link_count := counts e.1 }))) =
        (List.lookup k l).map (fun v => { v with link_count := counts k }) := by
  intro l k
  induction l with
  | nil => rfl
  | cons kv rest ih =>
    by_cases hk : k = kv.1
    · simp [List.lookup, beqT hk, hk]
    · simp [List.lookup, beqF hk, ih]

/-! ### Counter lemmas for C2 -/

/-- Occurrences of target `t` in one directly listed block (0 when the block
id is missing from the store). -/
def blockOcc (blocks : List (String × Block)) (t : String) (bid : String) : Nat :=
  match List.lookup bid blocks with
  | some b => (kgExtractWikilinks b.content).count t
  | none => 0

/-- Occurrences of target `t` in all directly listed blocks of one page. -/
def pageOcc (blocks : List (String × Block)) (t : String) (pg : String × Page) : Nat :=
  (pg.2.blocks.map (blockOcc blocks t)).sum

/-- Total number of wikilink occurrences across all pages' directly listed
blocks whose alias-stripped, trimmed target equals `t`. -/
def wikilinkOccurrences (pages : List (String × Page))
    (blocks : List (String × Block)) (t : String) : Nat :=
  (pages.map (pageOcc blocks t)).sum

theorem counts_processLink (pid : String) (st : BuildAcc) (link t : String) :
    (processLink pid st link).counts t =
      st.counts t + (if t = link then 1 else 0) := by
  by_cases h : link = pid
  · subst h
    by_cases ht : t = link <;> simp [processLink, bumpCount, ht]
  · by_cases ht : t = link <;> simp [processLink, bumpCount, h, ht]

theorem counts_foldl_links (pid t : String) :
    ∀ (links : List String) (st : BuildAcc),
      ((links.foldl (processLink pid) st).counts t = st.counts t + links.count t) := by
  intro links
  induction links with
  | nil => intro st; simp
  | cons l ls ih =>
    intro st
    rw [List.foldl_cons, ih, counts_processLink]
    rw [List.count_cons]
    by_cases ht : t = l
    · simp [ht, beqT rfl]
      omega
    · simp [ht, beqF (fun h => ht h.symm)]

theorem counts_processBlockStep (blocks : List (String × Block)) (pid t : String)
    (st : BuildAcc) (bid : String) :
    (processBlockStep blocks pid st bid).counts t =
      st.counts t + blockOcc blocks t bid := by
  unfold processBlockStep blockOcc
  rcases List.lookup bid blocks with _ | b
  · simp
  · exact counts_foldl_links pid t _ st

theorem counts_processPage (blocks : List (String × Block)) (active : Option String)
    (st : BuildAcc) (pg : String × Page) (t : String) :
    (processPage blocks active st pg).counts t = st.counts t + pageOcc blocks t pg := by
  unfold processPage pageOcc
  suffices h : ∀ (bids : List String) (st' : BuildAcc),
      ((bids.foldl (processBlockStep blocks pg.1) st').counts t =
        st'.counts t + (bids.map (blockOcc blocks t)).sum) by
    simpa using h pg.2.blocks _
  intro bids
  induction bids with
  | nil => intro st'; simp
  | cons bid bids ih =>
    intro st'
    rw [List.foldl_cons, ih, counts_processBlockStep]
    simp
    omega

theorem counts_build (pages : List (String × Page)) (blocks : List (String × Block))
    (active : Option String) (t : String) :
    (pages.foldl (processPage blocks active) (BuildAcc.mk [] [] [] (fun _ => 0))).counts t =
      wikilinkOccurrences pages blocks t := by
  suffices h : ∀ (ps : List (String × Page)) (st : BuildAcc),
      ((ps.foldl (processPage blocks active) st).counts t =
        st.counts t + (ps.map (pageOcc blocks t)).sum) by
    simpa [wikilinkOccurrences] using h pages (BuildAcc.mk [] [] [] (fun _ => 0))
  intro ps
  induction ps with
  | nil => intro st; simp
  | cons pg ps ih =>
    intro st
    rw [List.foldl_cons, ih, counts_processPage]
    simp
    omega

/-! ### Claim theorems -/

/-- C7: `extract_wikilinks` yields one (target, optional alias) pair per
non-overlapping `[[...]]` span in order with duplicates preserved, splitting
each span at the first `|` with whitespace trimmed and alias absent when
there is no `|` (first two conjuncts, on the spec's own example and on a
duplicate/alias-with-extra-bars example); text containing no complete
bracket pair yields the empty sequence (third conjunct). -/
theorem C7_extract_wikilinks_spec :
    extract_wikilinks "See [[Foo|bar]] and [[Baz]]" =
      [("Foo", some "bar"), ("Baz", none)] ∧
    extract_wikilinks "a [[X]] b [[ Y | al|t ]] c [[X]]" =
      [("X", none), ("Y", some "al|t"), ("X", none)] ∧
    ∀ text : String, hasBracketPair text.data = false → extract_wikilinks text = [] := by
  refine ⟨by decide, by decide, ?_⟩
  intro text hb
  rcases hsp : wikiSpans text.data with _ | ⟨s, rest⟩
  · rw [extract_wikilinks, hsp]
    simp
  · exfalso
    have hne : wikiSpansF (text.data.length + 1) text.data ≠ [] := by
      rw [show wikiSpansF (text.data.length + 1) text.data = wikiSpans text.data from rfl,
        hsp]
      simp
    have := hasBracketPair_of_wikiSpansF_ne_nil _ _ hne
    simp [this] at hb

/-- Witness for C7: a text with brackets but no complete `[[...]]` pair. -/
theorem C7_extract_wikilinks_witness :
    hasBracketPair "ab]]cd[[ef".data = false ∧ extract_wikilinks "ab]]cd[[ef" = [] :=
  ⟨by decide, C7_extract_wikilinks_spec.2.2 "ab]]cd[[ef" (by decide)⟩

/-- C4: `get_stats` reports the node count, the length of the directed
non-deduplicated edge list, the number of nodes with positive `link_count`,
and the number of zero-`link_count` nodes except that graphs with at most
one node report zero isolated pages. -/
theorem C4_get_stats_spec (g : KnowledgeGraph) :
    (get_stats g).total_pages = g.nodes.length ∧
    (get_stats g).total_links = g.edges.length ∧
    (get_stats g).connected_pages =
      (g.nodes.map Prod.snd).countP (fun n => decide (0 < n.link_count)) ∧
    (get_stats g).isolated_pages =
      (if g.nodes.length ≤ 1 then 0
       else (g.nodes.map Prod.snd).countP (fun n => decide (n.link_count = 0))) := by
  refine ⟨rfl, rfl, ?_, ?_⟩
  · rw [get_stats, List.countP_eq_length_filter]
  · rw [get_stats]
    by_cases h : g.nodes.length ≤ 1
    · rw [if_pos h]
      have hf : ∀ n ∈ g.nodes.map Prod.snd,
          (decide (n.link_count = 0) && decide (1 < g.nodes.length)) = false := by
        intro n _
        have : ¬(1 < g.nodes.length) := by omega
        simp [this]
      simp only [List.filter_congr hf, List.filter_false, List.length_nil]
    · rw [if_neg h, List.countP_eq_length_filter]
      have h1 : 1 < g.nodes.length := by omega
      have hf : ∀ n ∈ g.nodes.map Prod.snd,
          (decide (n.link_count = 0) && decide (1 < g.nodes.length)) =
            decide (n.link_count = 0) := by
        intro n _
        simp [h1]
      simp only [List.filter_congr hf]

/-- C5: `get_hub_pages` contains only nodes with positive `link_count`
(paired with exactly that count), is sorted descending by `link_count`, and
has length at most the limit. -/
theorem C5_get_hub_pages_spec (g : KnowledgeGraph) (limit : Nat) :
    (∀ e ∈ get_hub_pages g limit, 0 < e.1.link_count ∧ e.2 = e.1.link_count) ∧
    List.Pairwise (fun a b : GraphNode × Nat => b.2 ≤ a.2) (get_hub_pages g limit) ∧
    (get_hub_pages g limit).length ≤ limit := by
  refine ⟨?_, ?_, ?_⟩
  · intro e he
    have h1 := List.mem_of_mem_take he
    rw [List.mem_mergeSort, List.mem_filter] at h1
    obtain ⟨hmem, hpos⟩ := h1
    obtain ⟨n, hn, rfl⟩ := List.mem_map.mp hmem
    exact ⟨by simpa using hpos, rfl⟩
  · rw [get_hub_pages]
    have hs := @List.sorted_mergeSort (GraphNode × Nat)
      (fun a b => decide (b.2 ≤ a.2))
      (by intro a b c hab hbc; simp at hab hbc ⊢; omega)
      (by intro a b; simp; omega)
      (((g.nodes.map Prod.snd).map (fun n => (n, n.link_count))).filter
        (fun e => decide (0 < e.2)))
    exact (hs.sublist (List.take_sublist limit _)).imp (fun h => by simpa using h)
  · exact List.length_take_le _ _

/-! ### A small concrete corpus (used by witnesses and exhibits) -/

/-- Page "A", titled "Alpha", with two directly listed blocks. -/
def exPageA : Page :=
  { id := "A", title := "Alpha", icon := none, blocks := ["a1", "a2"],
    properties := [], tags := [], created_at := 0, updated_at := 0 }

/-- Page "B", titled "Beta", with one directly listed block. -/
def exPageB : Page :=
  { id := "B", title := "Beta", icon := none, blocks := ["b1"],
    properties := [], tags := [], created_at := 0, updated_at := 0 }

/-- Block of page "A" with a repeated link, an aliased link and a self-link. -/
def exBlockA1 : Block :=
  { id := "a1", content := "x [[B]] y [[ B |alias]] z [[A]]", parent_id := none,
    children := [], properties := [], created_at := 0, updated_at := 0 }

/-- Block of page "A" linking to the dangling target "C". -/
def exBlockA2 : Block :=
  { id := "a2", content := "[[C]]", parent_id := none,
    children := [], properties := [], created_at := 0, updated_at := 0 }

/-- Block of page "B" linking back to "A" and to "B" itself. -/
def exBlockB1 : Block :=
  { id := "b1", content := "[[A]] [[B]]", parent_id := none,
    children := [], properties := [], created_at := 0, updated_at := 0 }

def exPages : List (String × Page) := [("A", exPageA), ("B", exPageB)]

def exBlocks : List (String × Block) :=
  [("a1", exBlockA1), ("a2", exBlockA2), ("b1", exBlockB1)]

/-- The node the build produces for page "B": three occurrences target "B"
(two from page "A", one a self-link on "B"). -/
def exNodeB : GraphNode :=
  { id := "B", title := "Beta", icon := none, tags := [], link_count := 3,
    is_active := false }

/-- C2: after `build_from_state`, every page that has a node carries a
`link_count` equal to the total number of wikilink occurrences across all
pages' directly listed blocks whose alias-stripped, trimmed target equals
that page's id — occurrences are counted individually, self-links and links
from any page included; targets without a node have no node to update. -/
theorem C2_link_count_spec (pages : List (String × Page))
    (blocks : List (String × Block)) (active : Option String)
    (pid : String) (node : GraphNode)
    (hlook : List.lookup pid (build_from_state pages blocks active).nodes = some node) :
    node.link_count = wikilinkOccurrences pages blocks pid := by
  have hnodes : (build_from_state pages blocks active).nodes =
      (pages.foldl (processPage blocks active) (BuildAcc.mk [] [] [] (fun _ => 0))).nodes.map
        (fun e => (e.1, { e.2 with link_count :=
          (pages.foldl (processPage blocks active)
            (BuildAcc.mk [] [] [] (fun _ => 0))).counts e.1 })) := rfl
  rw [hnodes, lookup_patch] at hlook
  rcases hl : List.lookup pid
      (pages.foldl (processPage blocks active) (BuildAcc.mk [] [] [] (fun _ => 0))).nodes
    with _ | v
  · rw [hl] at hlook
    exact Option.noConfusion hlook
  · rw [hl] at hlook
    have hnode : node = { v with link_count :=
        (pages.foldl (processPage blocks active)
          (BuildAcc.mk [] [] [] (fun _ => 0))).counts pid } := by
      simpa using hlook.symm
    rw [hnode]
    exact counts_build pages blocks active pid

/-- Witness for C2 on the concrete corpus: page "B" is linked three times
(a repeat, an alias and a self-link). -/
theorem C2_link_count_witness :
    List.lookup "B" (build_from_state exPages exBlocks none).nodes = some exNodeB ∧
    exNodeB.link_count = wikilinkOccurrences exPages exBlocks "B" :=
  ⟨by decide, C2_link_count_spec exPages exBlocks none "B" exNodeB (by decide)⟩

/-- C10: the source id of every edge produced by `build_from_state` is a key
of the nodes map; a dangling target (here "C", which has no page) can occur
as an edge target and receive adjacency entries, yet has no node. -/
theorem C10_edge_sources_spec (pages : List (String × Page))
    (blocks : List (String × Block)) (active : Option String) :
    (∀ e ∈ (build_from_state pages blocks active).edges,
        containsKey (build_from_state pages blocks active).nodes e.source = true) ∧
    (containsKey (build_from_state exPages exBlocks none).nodes "C" = false ∧
      (∃ e ∈ (build_from_state exPages exBlocks none).edges, e.target = "C") ∧
      adjMem (build_from_state exPages exBlocks none).adjacency "C" "A" ∧
      (∀ e ∈ (build_from_state exPages exBlocks none).edges, e.source ≠ "C")) := by
  constructor
  · intro e he
    have hinit : EdgeSrcInv (BuildAcc.mk [] [] [] (fun _ => 0)) := by
      intro e he
      exact absurd he (List.not_mem_nil e)
    have hinv : EdgeSrcInv
        (pages.foldl (processPage blocks active) (BuildAcc.mk [] [] [] (fun _ => 0))) :=
      foldl_preserve EdgeSrcInv
        (fun st pg h => edgeSrcInv_processPage blocks active st pg h) pages _ hinit
    have hsrc := hinv e he
    have hck : containsKey (build_from_state pages blocks active).nodes e.source =
        containsKey
          (pages.foldl (processPage blocks active)
            (BuildAcc.mk [] [] [] (fun _ => 0))).nodes e.source := by
      unfold containsKey
      rw [show (build_from_state pages blocks active).nodes =
        (pages.foldl (processPage blocks active)
          (BuildAcc.mk [] [] [] (fun _ => 0))).nodes.map
          (fun e => (e.1, { e.2 with link_count :=
            (pages.foldl (processPage blocks active)
              (BuildAcc.mk [] [] [] (fun _ => 0))).counts e.1 })) from rfl]
      rw [lookup_patch]
      rcases List.lookup e.source
          (pages.foldl (processPage blocks active)
            (BuildAcc.mk [] [] [] (fun _ => 0))).nodes with _ | v <;> rfl
    rw [hck]
    exact hsrc
  · exact ⟨by decide, ⟨⟨"A", "C", 1⟩, by decide, rfl⟩, by decide, by decide⟩

/-- Witness for C10: the edge from "A" to the dangling target "C" has its
source among the node keys. -/
theorem C10_edge_sources_witness :
    (⟨"A", "C", 1⟩ : GraphEdge) ∈ (build_from_state exPages exBlocks none).edges ∧
    containsKey (build_from_state exPages exBlocks none).nodes "A" = true :=
  ⟨by decide, (C10_edge_sources_spec exPages exBlocks none).1 ⟨"A", "C", 1⟩ (by decide)⟩

/-! ### C9: backlink resolution -/

/-- C9: `get_backlinks page_id` contains exactly the Backlinks built from a
page other than `page_id`, one of whose directly listed blocks' lowercased
content contains the literal substring `[[title]]` or `[[title|` for the
resolved lowercased title (raw id fallback), each carrying the full
untruncated block content as context. -/
theorem C9_get_backlinks_spec (pages : List (String × Page))
    (blocks : List (String × Block)) (pageId : String) (bl : Backlink) :
    bl ∈ get_backlinks pages blocks pageId ↔
      ∃ pg ∈ pages, pg.1 ≠ pageId ∧ bl.page_id = pg.1 ∧ bl.page_title = pg.2.title ∧
        ∃ bid ∈ pg.2.blocks, ∃ b, List.lookup bid blocks = some b ∧
          (containsSub ('[' :: '[' :: resolvedTitle pages pageId ++ [']', ']'])
              (lowerChars b.content.data) = true ∨
            containsSub ('[' :: '[' :: resolvedTitle pages pageId ++ ['|'])
              (lowerChars b.content.data) = true) ∧
          bl.block_id = b.id ∧ bl.context = b.content := by
  rw [get_backlinks, List.mem_flatMap]
  constructor
  · rintro ⟨pg, hpg, hmem⟩
    by_cases hne : pg.1 = pageId
    · rw [if_pos hne] at hmem
      exact absurd hmem (List.not_mem_nil bl)
    · rw [if_neg hne] at hmem
      rw [List.mem_filterMap] at hmem
      obtain ⟨bid, hbid, hsome⟩ := hmem
      rcases hlook : List.lookup bid blocks with _ | b
      · rw [hlook] at hsome
        exact Option.noConfusion hsome
      · rw [hlook] at hsome
        by_cases hcond : (containsSub ('[' :: '[' :: resolvedTitle pages pageId ++ [']', ']'])
              (lowerChars b.content.data) ||
            containsSub ('[' :: '[' :: resolvedTitle pages pageId ++ ['|'])
              (lowerChars b.content.data)) = true
        · simp only [hcond, if_true] at hsome
          have hbl := Option.some.inj hsome
          refine ⟨pg, hpg, hne, ?_, ?_, bid, hbid, b, hlook, ?_, ?_, ?_⟩
          · rw [← hbl]
          · rw [← hbl]
          · simpa using hcond
          · rw [← hbl]
          · rw [← hbl]
        · rw [Bool.not_eq_true] at hcond
          simp [hcond] at hsome
          simp at hcond
          rcases hsome.1 with h | h
          · exact absurd h (by simp [hcond.1])
          · exact absurd h (by simp [hcond.2])
  · rintro ⟨pg, hpg, hne, hid, htitle, bid, hbid, b, hlook, hcond, hblock, hctx⟩
    refine ⟨pg, hpg, ?_⟩
    rw [if_neg hne, List.mem_filterMap]
    refine ⟨bid, hbid, ?_⟩
    rw [hlook]
    have hcond2 : (containsSub ('[' :: '[' :: resolvedTitle pages pageId ++ [']', ']'])
          (lowerChars b.content.data) ||
        containsSub ('[' :: '[' :: resolvedTitle pages pageId ++ ['|'])
          (lowerChars b.content.data)) = true := by
      rcases hcond with h | h
      · rw [h]
        rfl
      · rw [h]
        simp
    simp only [hcond2, if_true]
    rcases bl with ⟨w, x, y, z⟩
    simp only at hid htitle hblock hctx
    rw [hid, htitle, hblock, hctx]

/-- Corpus for the C9 witness: page "Y" holds a block that textually
references page "X" by its title "Target". -/
def blPageX : Page :=
  { id := "X", title := "Target", icon := none, blocks := [],
    properties := [], tags := [], created_at := 0, updated_at := 0 }

def blPageY : Page :=
  { id := "Y", title := "Src", icon := none, blocks := ["y1"],
    properties := [], tags := [], created_at := 0, updated_at := 0 }

def blBlockY1 : Block :=
  { id := "y1", content := "see [[Target]] and [[Target|alias]]", parent_id := none,
    children := [], properties := [], created_at := 0, updated_at := 0 }

def blPages : List (String × Page) := [("X", blPageX), ("Y", blPageY)]

def blBlocks : List (String × Block) := [("y1", blBlockY1)]

/-- Witness for C9: the block of "Y" referencing `[[Target]]` yields a
backlink of page "X" carrying the full block content. -/
theorem C9_get_backlinks_witness :
    (⟨"Y", "Src", "y1", "see [[Target]] and [[Target|alias]]"⟩ : Backlink) ∈
      get_backlinks blPages blBlocks "X" :=
  (C9_get_backlinks_spec blPages blBlocks "X" _).mpr
    ⟨("Y", blPageY), by decide, by decide, rfl, rfl, "y1", by decide, blBlockY1,
      by decide, Or.inl (by decide), rfl, rfl⟩

/-! ### C8: search -/

/-- The corpus of the spec's "Foobar" example. -/
def fooPage : Page :=
  { id := "F", title := "Foobar", icon := none, blocks := [],
    properties := [], tags := [], created_at := 0, updated_at := 0 }

def fooPages : List (String × Page) := [("F", fooPage)]

def fooBlocks : List (String × Block) := []

/-- C8: `search_pages` returns a result exactly for the pages whose title or
one of whose directly listed blocks matches the query case-insensitively;
the score is the 10-point title contribution plus 2 per matching block, the
snippets are the matching blocks' contents truncated to 100 characters,
results are sorted descending by score, and the page titled "Foobar"
queried with "foo" scores at least 10. -/
theorem C8_search_pages_spec (query : String) (pages : List (String × Page))
    (blocks : List (String × Block)) :
    (∀ r ∈ search_pages query pages blocks,
      ∃ pg ∈ pages, r.page_id = pg.2.id ∧ r.page_title = pg.2.title ∧
        (0 < searchTitleScore (lowerChars query.data) pg.2 ∨
          searchBlockMatches (lowerChars query.data) blocks pg.2 ≠ []) ∧
        r.score = searchTitleScore (lowerChars query.data) pg.2 +
          2 * (searchBlockMatches (lowerChars query.data) blocks pg.2).length ∧
        r.block_matches = searchBlockMatches (lowerChars query.data) blocks pg.2) ∧
    (∀ pg ∈ pages,
      (0 < searchTitleScore (lowerChars query.data) pg.2 ∨
        searchBlockMatches (lowerChars query.data) blocks pg.2 ≠ []) →
      ∃ r ∈ search_pages query pages blocks, r.page_id = pg.2.id ∧
        r.score = searchTitleScore (lowerChars query.data) pg.2 +
          2 * (searchBlockMatches (lowerChars query.data) blocks pg.2).length) ∧
    List.Pairwise (fun a b : SearchResult => b.score ≤ a.score)
      (search_pages query pages blocks) ∧
    (∃ r ∈ search_pages "foo" fooPages fooBlocks,
      r.page_title = "Foobar" ∧ 10 ≤ r.score) := by
  refine ⟨?_, ?_, ?_, ?_⟩
  · intro r hr
    simp only [search_pages, List.mem_mergeSort, List.mem_filterMap] at hr
    obtain ⟨pg, hpg, hsome⟩ := hr
    by_cases hcond : 0 < searchTitleScore (lowerChars query.data) pg.2 ∨
        searchBlockMatches (lowerChars query.data) blocks pg.2 ≠ []
    · rw [if_pos hcond] at hsome
      have h := Option.some.inj hsome
      refine ⟨pg, hpg, ?_, ?_, hcond, ?_, ?_⟩
      · rw [← h]
      · rw [← h]
      · rw [← h]
        show searchTitleScore _ pg.2 + (searchBlockMatches _ blocks pg.2).length * 2 = _
        omega
      · rw [← h]
    · rw [if_neg hcond] at hsome
      exact Option.noConfusion hsome
  · intro pg hpg hcond
    refine ⟨⟨pg.2.id, pg.2.title,
      searchTitleScore (lowerChars query.data) pg.2 +
        (searchBlockMatches (lowerChars query.data) blocks pg.2).length * 2,
      searchBlockMatches (lowerChars query.data) blocks pg.2⟩, ?_, rfl, ?_⟩
    · simp only [search_pages, List.mem_mergeSort, List.mem_filterMap]
      exact ⟨pg, hpg, by rw [if_pos hcond]⟩
    · show _ + _ * 2 = _ + 2 * _
      omega
  · simp only [search_pages]
    exact (@List.sorted_mergeSort SearchResult
      (fun a b => decide (b.score ≤ a.score))
      (by intro a b c hab hbc; simp at hab hbc ⊢; omega)
      (by intro a b; simp; omega) _).imp (fun h => by simpa using h)
  · refine ⟨⟨"F", "Foobar", 10, []⟩, ?_, rfl, by decide⟩
    simp only [search_pages, List.mem_mergeSort, List.mem_filterMap]
    exact ⟨("F", fooPage), by decide, by decide⟩

/-- Witness for C8: the "Foobar" page matched by query "foo" appears with
score 10 (title match only). -/
theorem C8_search_pages_witness :
    ∃ r ∈ search_pages "foo" fooPages fooBlocks, r.page_id = "F" ∧ r.score = 10 := by
  obtain ⟨r, hr, hid, hscore⟩ :=
    (C8_search_pages_spec "foo" fooPages fooBlocks).2.1 ("F", fooPage)
      (by decide) (Or.inl (by decide))
  exact ⟨r, hr, hid, hscore.trans (by decide)⟩

/-! ### C3: breadth-first search

Proof-side notions: a path through the adjacency index, and the invariant
maintained by the BFS loop. -/

/-- `PathIn adj a p b`: `p` is a nonempty walk from `a` to `b` whose
consecutive elements are adjacent in the index. -/
def PathIn (adj : List (String × List String)) (a : String) (p : List String)
    (b : String) : Prop :=
  p.Chain' (adjMem adj) ∧ p.head? = some a ∧ p.getLast? = some b

instance (adj : List (String × List String)) (a : String) (p : List String)
    (b : String) : Decidable (PathIn adj a p b) := by
  unfold PathIn
  infer_instance

theorem pathIn_snoc (adj : List (String × List String)) (a c n : String)
    (p : List String) (hp : PathIn adj a p c) (hadj : adjMem adj c n) :
    PathIn adj a (p ++ [n]) n := by
  obtain ⟨hchain, hhead, hlast⟩ := hp
  rcases p with _ | ⟨x, xs⟩
  · exact Option.noConfusion hhead
  refine ⟨?_, ?_, ?_⟩
  · rw [List.chain'_append]
    refine ⟨hchain, List.chain'_singleton n, ?_⟩
    intro y hy z hz
    have hyc : y = c := by
      rw [Option.mem_def, hlast] at hy
      exact (Option.some.inj hy).symm
    have hzn : z = n := by
      rw [Option.mem_def] at hz
      exact (Option.some.inj hz).symm
    rw [hyc, hzn]
    exact hadj
  · simpa using hhead
  · rw [List.getLast?_concat]

theorem pathIn_length_pos (adj : List (String × List String)) (a : String)
    (p : List String) (b : String) (hp : PathIn adj a p b) : 1 ≤ p.length := by
  rcases p with _ | ⟨x, xs⟩
  · exact Option.noConfusion hp.2.1
  · simp

/-- The loop invariant of `find_path`'s BFS: every queue entry is a valid
shortest path to its visited node, queue path lengths are non-decreasing and
spread at most 1, every visited node is queued or fully expanded, and the
goal cannot be visited without still being queued. -/
structure BfsInv (adj : List (String × List String)) (a goal : String)
    (visited : List String) (queue : List (String × List String)) : Prop where
  valid : ∀ e ∈ queue, PathIn adj a e.2 e.1 ∧ e.1 ∈ visited
  start_vis : a ∈ visited
  sorted : List.Pairwise (fun e e' : String × List String =>
    e.2.length ≤ e'.2.length) queue
  bounded : ∀ e ∈ queue, ∀ e' ∈ queue, e.2.length ≤ e'.2.length + 1
  opt : ∀ e ∈ queue, ∀ p, PathIn adj a p e.1 → e.2.length ≤ p.length
  expanded : ∀ v ∈ visited,
    (∃ e ∈ queue, e.1 = v) ∨ (∀ n, adjMem adj v n → n ∈ visited)
  goal_q : goal ∈ visited → ∃ e ∈ queue, e.1 = goal

/-- Any node reachable by a path no longer than every queued path length is
already visited. -/
theorem visited_of_short (adj : List (String × List String)) (a goal : String)
    (visited : List String) (queue : List (String × List String))
    (inv : BfsInv adj a goal visited queue) (L : Nat)
    (hfront : ∀ e ∈ queue, L ≤ e.2.length) :
    ∀ (p : List String) (w : String), PathIn adj a p w → p.length ≤ L →
      w ∈ visited := by
  intro p
  induction p using List.reverseRecOn with
  | nil =>
    intro w hp
    exact absurd hp.2.1 (by simp)
  | append_singleton q x ih =>
    intro w hp hlen
    have hw : w = x := by
      have hx := hp.2.2
      rw [List.getLast?_concat] at hx
      exact (Option.some.inj hx).symm
    subst hw
    rcases q with _ | ⟨y, ys⟩
    · have hh := hp.2.1
      have hax : w = a := by
        have : some w = some a := by simpa using hh
        exact Option.some.inj this
      rw [hax]
      exact inv.start_vis
    · obtain ⟨hchain, hhead, -⟩ := hp
      rw [List.chain'_append] at hchain
      obtain ⟨hchq, -, hlink⟩ := hchain
      rcases hgl : (y :: ys).getLast? with _ | wq
      · exact absurd hgl (by simp)
      have hadj : adjMem adj wq w := by
        refine hlink wq ?_ w ?_
        · rw [hgl]; rfl
        · rfl
      have hya : y = a := by
        rw [List.cons_append, List.head?_cons] at hhead
        simpa using hhead
      have hpq : PathIn adj a (y :: ys) wq := by
        refine ⟨hchq, ?_, hgl⟩
        rw [List.head?_cons, hya]
      have hlq : (y :: ys).length ≤ L := by
        simp only [List.length_append, List.length_cons] at hlen ⊢
        omega
      have hwqvis : wq ∈ visited := ih wq hpq hlq
      rcases inv.expanded wq hwqvis with ⟨e, he, heq⟩ | hclosed
      · exfalso
        have h1 := hfront e he
        have h2 := inv.opt e he (y :: ys) (heq ▸ hpq)
        simp only [List.length_append, List.length_cons] at hlen h2
        omega
      · exact hclosed w hadj

theorem enqueueAll_mem_iff (path : List String) :
    ∀ (ns visited : List String) (m : String),
      m ∈ (enqueueAll path visited ns).1 ↔
        m ∈ visited ∨ ∃ e ∈ (enqueueAll path visited ns).2, e.1 = m := by
  intro ns
  induction ns with
  | nil =>
    intro visited m
    simp [enqueueAll]
  | cons n ns ih =>
    intro visited m
    by_cases hn : n ∈ visited
    · simp only [enqueueAll, if_pos hn]
      exact ih visited m
    · simp only [enqueueAll, if_neg hn]
      rw [ih (n :: visited) m]
      constructor
      · rintro (hm | ⟨e, he, heq⟩)
        · rw [List.mem_cons] at hm
          rcases hm with rfl | hm
          · exact Or.inr ⟨(m, path ++ [m]), List.mem_cons_self _ _, rfl⟩
          · exact Or.inl hm
        · exact Or.inr ⟨e, List.mem_cons_of_mem _ he, heq⟩
      · rintro (hm | ⟨e, he, heq⟩)
        · exact Or.inl (List.mem_cons_of_mem _ hm)
        · rw [List.mem_cons] at he
          rcases he with rfl | he
          · exact Or.inl (heq ▸ List.mem_cons_self _ _)
          · exact Or.inr ⟨e, he, heq⟩

theorem enqueueAll_entries (path : List String) :
    ∀ (ns visited : List String), ∀ e ∈ (enqueueAll path visited ns).2,
      e.2 = path ++ [e.1] ∧ e.1 ∈ ns ∧ e.1 ∉ visited := by
  intro ns
  induction ns with
  | nil =>
    intro visited e he
    exact absurd he (List.not_mem_nil e)
  | cons n ns ih =>
    intro visited e he
    by_cases hn : n ∈ visited
    · rw [enqueueAll, if_pos hn] at he
      obtain ⟨h1, h2, h3⟩ := ih visited e he
      exact ⟨h1, List.mem_cons_of_mem _ h2, h3⟩
    · rw [enqueueAll, if_neg hn] at he
      rw [List.mem_cons] at he
      rcases he with rfl | he
      · exact ⟨rfl, List.mem_cons_self _ _, hn⟩
      · obtain ⟨h1, h2, h3⟩ := ih (n :: visited) e he
        refine ⟨h1, List.mem_cons_of_mem _ h2, ?_⟩
        intro hv
        exact h3 (List.mem_cons_of_mem _ hv)

theorem enqueueAll_vis_sub (path : List String) :
    ∀ (ns visited : List String), ∀ v ∈ visited, v ∈ (enqueueAll path visited ns).1 := by
  intro ns
  induction ns with
  | nil =>
    intro visited v hv
    exact hv
  | cons n ns ih =>
    intro visited v hv
    by_cases hn : n ∈ visited
    · rw [enqueueAll, if_pos hn]
      exact ih visited v hv
    · rw [enqueueAll, if_neg hn]
      exact ih (n :: visited) v (List.mem_cons_of_mem _ hv)

theorem enqueueAll_ns_sub (path : List String) :
    ∀ (ns visited : List String), ∀ n ∈ ns, n ∈ (enqueueAll path visited ns).1 := by
  intro ns
  induction ns with
  | nil =>
    intro visited n hn
    exact absurd hn (List.not_mem_nil n)
  | cons m ns ih =>
    intro visited n hn
    rw [List.mem_cons] at hn
    by_cases hm : m ∈ visited
    · rw [enqueueAll, if_pos hm]
      rcases hn with rfl | hn
      · exact enqueueAll_vis_sub path ns visited n hm
      · exact ih visited n hn
    · rw [enqueueAll, if_neg hm]
      rcases hn with rfl | hn
      · exact enqueueAll_vis_sub path ns (n :: visited) n (List.mem_cons_self _ _)
      · exact ih (m :: visited) n hn

theorem enqueueAll_card (path : List String) :
    ∀ (ns visited : List String),
      ((enqueueAll path visited ns).1).toFinset.card =
        visited.toFinset.card + ((enqueueAll path visited ns).2).length := by
  intro ns
  induction ns with
  | nil =>
    intro visited
    simp [enqueueAll]
  | cons n ns ih =>
    intro visited
    by_cases hn : n ∈ visited
    · rw [enqueueAll, if_pos hn]
      exact ih visited
    · rw [enqueueAll, if_neg hn]
      have hcard := ih (n :: visited)
      have hins : (n :: visited).toFinset.card = visited.toFinset.card + 1 := by
        simp only [List.toFinset_cons]
        rw [Finset.card_insert_of_not_mem (by simpa using hn)]
      rw [hcard, hins]
      simp only [List.length_cons]
      omega

/-- One BFS loop iteration (pop a non-goal front, enqueue its unvisited
neighbors) preserves the invariant. -/
theorem bfsInv_step (adj : List (String × List String)) (a goal : String)
    (visited : List String) (c : String) (path : List String)
    (rest : List (String × List String))
    (inv : BfsInv adj a goal visited ((c, path) :: rest)) (hc : c ≠ goal) :
    BfsInv adj a goal (enqueueAll path visited (lookupD adj c)).1
      (rest ++ (enqueueAll path visited (lookupD adj c)).2) := by
  have hfront := inv.valid (c, path) (List.mem_cons_self _ _)
  obtain ⟨hsorted_head, hsorted_tail⟩ := List.pairwise_cons.mp inv.sorted
  have hrest_lb : ∀ e ∈ rest, path.length ≤ e.2.length := hsorted_head
  have hrest_ub : ∀ e ∈ rest, e.2.length ≤ path.length + 1 := fun e he =>
    inv.bounded e (List.mem_cons_of_mem _ he) (c, path) (List.mem_cons_self _ _)
  have hes := enqueueAll_entries path (lookupD adj c) visited
  have hes_len : ∀ e ∈ (enqueueAll path visited (lookupD adj c)).2,
      e.2.length = path.length + 1 := by
    intro e he
    rw [(hes e he).1]
    simp
  have hes_path : ∀ e ∈ (enqueueAll path visited (lookupD adj c)).2,
      PathIn adj a e.2 e.1 := by
    intro e he
    rw [(hes e he).1]
    exact pathIn_snoc adj a c e.1 path hfront.1 ((hes e he).2.1)
  have hvm := enqueueAll_vis_sub path (lookupD adj c) visited
  have hmem := enqueueAll_mem_iff path (lookupD adj c) visited
  have hold_front : ∀ e ∈ (c, path) :: rest, path.length ≤ e.2.length := by
    intro e he
    rw [List.mem_cons] at he
    rcases he with rfl | he
    · exact Nat.le_refl _
    · exact hrest_lb e he
  refine ⟨?_, ?_, ?_, ?_, ?_, ?_, ?_⟩
  · intro e he
    rw [List.mem_append] at he
    rcases he with he | he
    · obtain ⟨h1, h2⟩ := inv.valid e (List.mem_cons_of_mem _ he)
      exact ⟨h1, hvm e.1 h2⟩
    · exact ⟨hes_path e he, (hmem e.1).mpr (Or.inr ⟨e, he, rfl⟩)⟩
  · exact hvm a inv.start_vis
  · rw [List.pairwise_append]
    refine ⟨hsorted_tail, ?_, ?_⟩
    · exact List.pairwise_of_forall_mem_list (fun e he e' he' => by
        rw [hes_len e he, hes_len e' he'])
    · intro e he e' he'
      rw [hes_len e' he']
      exact hrest_ub e he
  · intro e he e' he'
    rw [List.mem_append] at he he'
    have h1 : e.2.length ≤ path.length + 1 := by
      rcases he with he | he
      · exact hrest_ub e he
      · exact Nat.le_of_eq (hes_len e he)
    have h2 : path.length ≤ e'.2.length := by
      rcases he' with he' | he'
      · exact hrest_lb e' he'
      · rw [hes_len e' he']
        omega
    omega
  · intro e he p hp
    rw [List.mem_append] at he
    rcases he with he | he
    · exact inv.opt e (List.mem_cons_of_mem _ he) p hp
    · rw [hes_len e he]
      by_contra hlt
      have hple : p.length ≤ path.length := by omega
      have := visited_of_short adj a goal visited ((c, path) :: rest) inv
        path.length hold_front p e.1 hp hple
      exact (hes e he).2.2 this
  · intro v hv
    rw [hmem v] at hv
    rcases hv with hv | ⟨e, he, heq⟩
    · rcases inv.expanded v hv with ⟨e, he, heq⟩ | hclosed
      · rw [List.mem_cons] at he
        rcases he with rfl | he
        · right
          intro n hn
          have hn2 : n ∈ lookupD adj c := by
            have hcv : c = v := heq
            rw [hcv]
            exact hn
          exact enqueueAll_ns_sub path (lookupD adj c) visited n hn2
        · exact Or.inl ⟨e, List.mem_append.mpr (Or.inl he), heq⟩
      · right
        intro n hn
        exact hvm n (hclosed n hn)
    · exact Or.inl ⟨e, List.mem_append.mpr (Or.inr he), heq⟩
  · intro hg
    rw [hmem goal] at hg
    rcases hg with hg | ⟨e, he, heq⟩
    · obtain ⟨e, he, heq⟩ := inv.goal_q hg
      rw [List.mem_cons] at he
      rcases he with rfl | he
      · exact absurd heq hc
      · exact ⟨e, List.mem_append.mpr (Or.inl he), heq⟩
    · exact ⟨e, List.mem_append.mpr (Or.inr he), heq⟩

/-- The invariant holds at BFS start. -/
theorem bfsInv_init (adj : List (String × List String)) (a goal : String) :
    BfsInv adj a goal [a] [(a, [a])] := by
  refine ⟨?_, ?_, ?_, ?_, ?_, ?_, ?_⟩
  · intro e he
    rw [List.mem_singleton] at he
    subst he
    exact ⟨⟨List.chain'_singleton a, rfl, rfl⟩, List.mem_cons_self _ _⟩
  · exact List.mem_cons_self _ _
  · exact List.pairwise_singleton _ _
  · intro e he e' he'
    rw [List.mem_singleton] at he he'
    subst he
    subst he'
    omega
  · intro e he p hp
    rw [List.mem_singleton] at he
    subst he
    exact pathIn_length_pos adj a p a hp
  · intro v hv
    rw [List.mem_singleton] at hv
    subst hv
    exact Or.inl ⟨(v, [v]), List.mem_cons_self _ _, rfl⟩
  · intro hg
    rw [List.mem_singleton] at hg
    exact ⟨(a, [a]), List.mem_cons_self _ _, hg.symm⟩

/-- Soundness and minimality: a path returned by the BFS loop under the
invariant is a valid path from `a` to the goal of minimum length. -/
theorem bfsAux_some (adj : List (String × List String)) (a goal : String) :
    ∀ (fuel : Nat) (visited : List String) (queue : List (String × List String)),
      BfsInv adj a goal visited queue →
      ∀ p, bfsAux adj goal fuel visited queue = some p →
        PathIn adj a p goal ∧ ∀ q, PathIn adj a q goal → p.length ≤ q.length := by
  intro fuel
  induction fuel with
  | zero =>
    intro visited queue inv p h
    exact Option.noConfusion h
  | succ fuel ih =>
    intro visited queue inv p h
    rcases queue with _ | ⟨⟨c, path⟩, rest⟩
    · exact Option.noConfusion h
    · rw [show bfsAux adj goal (fuel + 1) visited ((c, path) :: rest) =
        (if c = goal then some path
         else bfsAux adj goal fuel (enqueueAll path visited (lookupD adj c)).1
           (rest ++ (enqueueAll path visited (lookupD adj c)).2)) from rfl] at h
      by_cases hcg : c = goal
      · rw [if_pos hcg] at h
        have hp := Option.some.inj h
        subst hp
        obtain ⟨hpath, -⟩ := inv.valid (c, path) (List.mem_cons_self _ _)
        refine ⟨hcg ▸ hpath, ?_⟩
        intro q hq
        refine inv.opt (c, path) (List.mem_cons_self _ _) q ?_
        rw [hcg]
        exact hq
      · rw [if_neg hcg] at h
        exact ih _ _ (bfsInv_step adj a goal visited c path rest inv hcg) p h

/-- Completeness: if the BFS loop exhausts its queue (with enough fuel) and
returns `none`, no path from `a` to the goal exists at all. -/
theorem bfsAux_none (adj : List (String × List String)) (a goal : String)
    (V : Finset String) (hV : ∀ x n, n ∈ lookupD adj x → n ∈ V) :
    ∀ (fuel : Nat) (visited : List String) (queue : List (String × List String)),
      BfsInv adj a goal visited queue →
      (∀ v ∈ visited, v ∈ V) →
      V.card - visited.toFinset.card + queue.length ≤ fuel →
      bfsAux adj goal fuel visited queue = none →
      ∀ p, ¬ PathIn adj a p goal := by
  intro fuel
  induction fuel with
  | zero =>
    intro visited queue inv hvis hmeas hnone p hp
    have hq : queue = [] := List.length_eq_zero.mp (by omega)
    subst hq
    have hgoal := visited_of_short adj a goal visited [] inv p.length
      (fun e he => absurd he (List.not_mem_nil e)) p goal hp (Nat.le_refl _)
    obtain ⟨e, he, -⟩ := inv.goal_q hgoal
    exact absurd he (List.not_mem_nil e)
  | succ fuel ih =>
    intro visited queue inv hvis hmeas hnone p hp
    rcases queue with _ | ⟨⟨c, path⟩, rest⟩
    · have hgoal := visited_of_short adj a goal visited [] inv p.length
        (fun e he => absurd he (List.not_mem_nil e)) p goal hp (Nat.le_refl _)
      obtain ⟨e, he, -⟩ := inv.goal_q hgoal
      exact absurd he (List.not_mem_nil e)
    · rw [show bfsAux adj goal (fuel + 1) visited ((c, path) :: rest) =
        (if c = goal then some path
         else bfsAux adj goal fuel (enqueueAll path visited (lookupD adj c)).1
           (rest ++ (enqueueAll path visited (lookupD adj c)).2)) from rfl] at hnone
      by_cases hcg : c = goal
      · rw [if_pos hcg] at hnone
        exact Option.noConfusion hnone
      · rw [if_neg hcg] at hnone
        have hcard := enqueueAll_card path (lookupD adj c) visited
        have hsub : ∀ v ∈ (enqueueAll path visited (lookupD adj c)).1, v ∈ V := by
          intro v hv
          rw [enqueueAll_mem_iff] at hv
          rcases hv with hv | ⟨e, he, heq⟩
          · exact hvis v hv
          · have hn := (enqueueAll_entries path (lookupD adj c) visited e he).2.1
            exact heq ▸ hV c e.1 hn
        have hle : (enqueueAll path visited (lookupD adj c)).1.toFinset.card ≤ V.card := by
          apply Finset.card_le_card
          intro v hv
          rw [List.mem_toFinset] at hv
          exact hsub v hv
        have hmeas' : V.card - (enqueueAll path visited (lookupD adj c)).1.toFinset.card +
            (rest ++ (enqueueAll path visited (lookupD adj c)).2).length ≤ fuel := by
          rw [List.length_append]
          rw [hcard] at hle ⊢
          simp only [List.length_cons] at hmeas
          omega
        exact ih _ _ (bfsInv_step adj a goal visited c path rest inv hcg)
          hsub hmeas' hnone p hp

theorem lookup_mem {α : Type} :
    ∀ (l : List (String × α)) (k : String) (v : α),
      List.lookup k l = some v → (k, v) ∈ l := by
  intro l
  induction l with
  | nil =>
    intro k v h
    exact Option.noConfusion h
  | cons kv rest ih =>
    intro k v h
    rcases kv with ⟨k1, v1⟩
    by_cases hk : k = k1
    · rw [List.lookup, beqT hk] at h
      have hv := Option.some.inj h
      rw [hk, ← hv]
      exact List.mem_cons_self _ _
    · rw [List.lookup, beqF hk] at h
      exact List.mem_cons_of_mem _ (ih k v h)

/-- C3: `find_path a a` is `some [a]` whenever `a` has a node; a returned
path starts at `a`, ends at `b`, steps only through the adjacency index and
has minimum length; `none` is returned exactly when an endpoint has no node
or no path through the adjacency index exists. -/
theorem C3_find_path_spec (g : KnowledgeGraph) (a b : String) :
    (containsKey g.nodes a = true → find_path g a a = some [a]) ∧
    (∀ p, find_path g a b = some p →
      p.head? = some a ∧ p.getLast? = some b ∧ p.Chain' (adjMem g.adjacency) ∧
      (∀ q, PathIn g.adjacency a q b → p.length ≤ q.length)) ∧
    (find_path g a b = none ↔
      (containsKey g.nodes a = false ∨ containsKey g.nodes b = false ∨
        ∀ q, ¬ PathIn g.adjacency a q b)) := by
  have hsound : ∀ p, find_path g a b = some p →
      PathIn g.adjacency a p b ∧
        ∀ q, PathIn g.adjacency a q b → p.length ≤ q.length := by
    intro p h
    rw [find_path] at h
    by_cases hcond : (containsKey g.nodes a && containsKey g.nodes b) = true
    · rw [if_pos hcond] at h
      exact bfsAux_some g.adjacency a b _ [a] [(a, [a])]
        (bfsInv_init g.adjacency a b) p h
    · rw [if_neg hcond] at h
      exact Option.noConfusion h
  refine ⟨?_, ?_, ?_⟩
  · intro h
    rw [find_path, if_pos (by rw [h]; rfl)]
    rw [show bfsAux g.adjacency a (((g.adjacency.map Prod.snd).flatten).length + 1)
        [a] [(a, [a])] =
      (if a = a then some [a]
       else bfsAux g.adjacency a ((g.adjacency.map Prod.snd).flatten).length
         (enqueueAll [a] [a] (lookupD g.adjacency a)).1
         ([] ++ (enqueueAll [a] [a] (lookupD g.adjacency a)).2)) from rfl]
    rw [if_pos rfl]
  · intro p h
    obtain ⟨⟨hchain, hhead, hlast⟩, hmin⟩ := hsound p h
    exact ⟨hhead, hlast, hchain, hmin⟩
  · constructor
    · intro h
      by_cases hcond : (containsKey g.nodes a && containsKey g.nodes b) = true
      · right; right
        rw [find_path, if_pos hcond] at h
        refine bfsAux_none g.adjacency a b
          (insert a ((g.adjacency.map Prod.snd).flatten).toFinset) ?_ _ [a] [(a, [a])]
          (bfsInv_init g.adjacency a b) ?_ ?_ h
        · intro x n hn
          rcases hl : List.lookup x g.adjacency with _ | s
          · rw [lookupD, hl] at hn
            exact absurd hn (List.not_mem_nil n)
          · rw [lookupD, hl] at hn
            apply Finset.mem_insert_of_mem
            rw [List.mem_toFinset, List.mem_flatten]
            exact ⟨s, List.mem_map.mpr ⟨(x, s), lookup_mem g.adjacency x s hl, rfl⟩, hn⟩
        · intro v hv
          rw [List.mem_singleton] at hv
          subst hv
          exact Finset.mem_insert_self _ _
        · have h1 : ([a] : List String).toFinset.card = 1 := by simp
          have h2 : (insert a ((g.adjacency.map Prod.snd).flatten).toFinset).card ≤
              ((g.adjacency.map Prod.snd).flatten).toFinset.card + 1 :=
            Finset.card_insert_le _ _
          have h3 : ((g.adjacency.map Prod.snd).flatten).toFinset.card ≤
              ((g.adjacency.map Prod.snd).flatten).length := List.toFinset_card_le _
          simp only [List.length_cons, List.length_nil, h1]
          omega
      · rcases hx : containsKey g.nodes a with - | -
        · exact Or.inl rfl
        · rcases hy : containsKey g.nodes b with - | -
          · exact Or.inr (Or.inl rfl)
          · rw [hx, hy] at hcond
            exact absurd rfl hcond
    · rintro (h | h | h)
      · rw [find_path, if_neg (by rw [h]; simp)]
      · rw [find_path, if_neg (by rw [h]; simp)]
      · rcases hfp : find_path g a b with _ | p
        · rfl
        · exfalso
          exact h p (hsound p hfp).1

/-- The spec's three-page example graph: A-B and B-C are adjacent, with no
direct A-C link; "D" has no node. -/
def mkNode (i : String) : GraphNode :=
  { id := i, title := i, icon := none, tags := [], link_count := 0, is_active := false }

def pathG : KnowledgeGraph :=
  { nodes := [("A", mkNode "A"), ("B", mkNode "B"), ("C", mkNode "C")],
    edges := [⟨"A", "B", 1⟩, ⟨"B", "C", 1⟩],
    adjacency := [("A", ["B"]), ("B", ["A", "C"]), ("C", ["B"])] }

/-- Witness for C3: on the example graph, `find_path A A = [A]`, every path
from A to C has at least 3 nodes (the returned `[A, B, C]` is minimal), and
`find_path` to the absent "D" is `none`. -/
theorem C3_find_path_witness :
    find_path pathG "A" "A" = some ["A"] ∧
    (∀ q, PathIn pathG.adjacency "A" q "C" → 3 ≤ q.length) ∧
    find_path pathG "A" "D" = none :=
  ⟨(C3_find_path_spec pathG "A" "A").1 (by decide),
   fun q hq => by
     have h := ((C3_find_path_spec pathG "A" "C").2.1 ["A", "B", "C"]
       (by decide)).2.2.2 q hq
     simpa using h,
   ((C3_find_path_spec pathG "A" "D").2.2).mpr (Or.inr (Or.inl (by decide)))⟩

end DioxusBrain
